import Mathlib

/-!
# Verification of the MSEDCL asset dashboard core (`mhbase.py`)

Shallow embedding of the dashboard's data pipeline: the asset table loaded
from the `asset_data` relation, membership filtering by region and zone,
scalar / grouped / pivoted sums of the four numeric columns, the memoized
load, the connection lifecycle, and the CSV export, together with proofs of
the specification's testable properties.
-/

namespace MSEDCL

/-- One row of the `asset_data` table (`SELECT * FROM asset_data`).
Category columns are strings; the four count columns may be missing
(NULL / NaN) in the source, hence `Option Nat`. -/
structure AssetRecord where
  region_name : String
  z_name : String
  c_name : String
  substation : Option Nat
  dtc : Option Nat
  ht_pole : Option Nat
  lt_pole : Option Nat
deriving DecidableEq

/-- pandas `Series.isin(sel)` evaluated at one element. -/
def isin (sel : List String) (v : String) : Bool := sel.contains v

/-- pandas boolean-mask row selection `df[mask]`: keep the rows whose mask
entry is `true`, in order. -/
def maskSelect : List AssetRecord → List Bool → List AssetRecord
  | [], _ => []
  | _ :: _, [] => []
  | r :: rs, b :: bs => if b then r :: maskSelect rs bs else maskSelect rs bs

/-- Line `mhbase.py:90`:
`data[data["region_name"].isin(selected_region) & data["z_name"].isin(selected_zone)]`. -/
def filtered_data (data : List AssetRecord) (selected_region selected_zone : List String) :
    List AssetRecord :=
  maskSelect data
    (data.map fun r => isin selected_region r.region_name && isin selected_zone r.z_name)

/-- pandas `Series.sum()` over a count column: missing entries are skipped,
i.e. contribute zero; the empty column sums to `0`. -/
def seriesSum (xs : List (Option Nat)) : Nat := xs.foldl (fun acc x => acc + x.getD 0) 0

/-- Line `mhbase.py:93`: `filtered_data["substation"].sum()`. -/
def total_substation (f : List AssetRecord) : Nat := seriesSum (f.map (·.substation))

/-- Line `mhbase.py:94`: `filtered_data["dtc"].sum()`. -/
def total_dtc (f : List AssetRecord) : Nat := seriesSum (f.map (·.dtc))

/-- Line `mhbase.py:95`: `filtered_data["ht_pole"].sum()`. -/
def total_ht_pole (f : List AssetRecord) : Nat := seriesSum (f.map (·.ht_pole))

/-- Line `mhbase.py:96`: `filtered_data["lt_pole"].sum()`. -/
def total_lt_pole (f : List AssetRecord) : Nat := seriesSum (f.map (·.lt_pole))

/-- pandas `Series.unique()`: the distinct values of a column in order of
first appearance (used for the sidebar option domains and the group /
pivot key sets; pandas sorts `groupby` keys, but no claim here depends on
key order, only on the key set). -/
def uniqueVals (l : List String) : List String :=
  l.foldl (fun acc x => if x ∈ acc then acc else acc ++ [x]) []

/-- One output row of `filtered_data.groupby(key).sum()` (`mhbase.py:107` and
`mhbase.py:133`): a key value together with the per-column sums over the rows
carrying it. -/
structure GroupRow where
  key : String
  substation : Nat
  dtc : Nat
  ht_pole : Nat
  lt_pole : Nat
deriving DecidableEq

/-- The group row for key value `k`: per-column sums over the rows of `f`
whose `key` column equals `k` (the aggregation done by `groupby(...).sum()`). -/
def groupRowAt (f : List AssetRecord) (key : AssetRecord → String) (k : String) : GroupRow where
  key := k
  substation := seriesSum ((f.filter fun r => key r == k).map (·.substation))
  dtc := seriesSum ((f.filter fun r => key r == k).map (·.dtc))
  ht_pole := seriesSum ((f.filter fun r => key r == k).map (·.ht_pole))
  lt_pole := seriesSum ((f.filter fun r => key r == k).map (·.lt_pole))

/-- Embedding of `filtered_data.groupby(key).sum().reset_index()`: one `GroupRow` per
distinct observed value of the key column. -/
def groupBySum (key : AssetRecord → String) (f : List AssetRecord) : List GroupRow :=
  (uniqueVals (f.map key)).map (groupRowAt f key)

/-- Line `mhbase.py:107`: `filtered_data.groupby("region_name").sum().reset_index()`. -/
def region_data (f : List AssetRecord) : List GroupRow := groupBySum (·.region_name) f

/-- Line `mhbase.py:133`: `filtered_data.groupby("z_name").sum().reset_index()`. -/
def zone_data (f : List AssetRecord) : List GroupRow := groupBySum (·.z_name) f

/-- One cell of the heatmap pivot: a `(region, zone)` pair and the four sums. -/
structure PivotCell where
  region : String
  zone : String
  substation : Nat
  dtc : Nat
  ht_pole : Nat
  lt_pole : Nat
deriving DecidableEq

/-- The pivot cell at `(reg, zn)`: per-column sums over the rows carrying both
key values; a pair no row carries gets all-zero sums (`fill_value=0`). -/
def pivotCellAt (f : List AssetRecord) (reg zn : String) : PivotCell where
  region := reg
  zone := zn
  substation :=
    seriesSum ((f.filter fun r => r.region_name == reg && r.z_name == zn).map (·.substation))
  dtc := seriesSum ((f.filter fun r => r.region_name == reg && r.z_name == zn).map (·.dtc))
  ht_pole := seriesSum ((f.filter fun r => r.region_name == reg && r.z_name == zn).map (·.ht_pole))
  lt_pole := seriesSum ((f.filter fun r => r.region_name == reg && r.z_name == zn).map (·.lt_pole))

/-- Lines `mhbase.py:144`-`150`: `filtered_data.pivot_table(values=[the four count
columns], index="region_name", columns="z_name", aggfunc="sum",
fill_value=0)`: a dense grid of cells over the cross-product of the observed
region values and the observed zone values. -/
def heatmap_data (f : List AssetRecord) : List PivotCell :=
  (uniqueVals (f.map (·.region_name))).flatMap fun reg =>
    (uniqueVals (f.map (·.z_name))).map fun zn => pivotCellAt f reg zn

/-- State of the memoization wrapped around the loader (`mhbase.py:54`): the
stored table, if any, and how many times the underlying database load ran. -/
structure CacheState where
  stored : Option (List AssetRecord)
  loadCount : Nat
deriving DecidableEq

/-- The cache at process start: nothing stored, no loads performed. -/
def initialCache : CacheState where
  stored := none
  loadCount := 0

/-- Modelled from the spec: the Result Cache contract `get_or_load()` (§4.2) —
the memoization layer applied to `load_data` at `mhbase.py:54` is the
`st.cache_data` decorator, library code whose body is not in this
repository's sources. `src` is the table the database query would return.
The first call runs the loader and stores its result in process-wide state;
every later call returns the stored table without re-querying. -/
def get_or_load (src : List AssetRecord) (s : CacheState) : List AssetRecord × CacheState :=
  match s.stored with
  | some t => (t, s)
  | none => (src, { stored := some src, loadCount := s.loadCount + 1 })

/-- Results and final state of `n` successive `get_or_load` calls (the
dashboard re-runs the whole script, hence the load call, on every
interaction) starting from cache state `s`. -/
def runCalls (src : List AssetRecord) : Nat → CacheState → List (List AssetRecord) × CacheState
  | 0, s => ([], s)
  | n + 1, s =>
    let p1 := get_or_load src s
    let p2 := runCalls src n p1.2
    (p1.1 :: p2.1, p2.2)

/-- Outcome of `pd.read_sql(query, conn)` at `mhbase.py:58`: either the
materialized table, or a raised exception (absent table / rejected query). -/
inductive DbResult where
  | ok (t : List AssetRecord)
  | qerr
deriving DecidableEq

/-- What one invocation of the loader body leaves behind: the returned table
or the propagated exception, and whether `conn.close()` ran before control
left the function. -/
structure LoadOutcome where
  result : Except Unit (List AssetRecord)
  connClosed : Bool

/-- Lines `mhbase.py:55`-`60`, step by step: the connection is opened, then the
query runs; on success `conn.close()` executes and the data is returned;
when `pd.read_sql` raises, the exception propagates at once and the
`conn.close()` on the following line never runs — the body has no
try/finally scoping around the query. -/
def load_data (r : DbResult) : LoadOutcome :=
  match r with
  | .ok t => { result := .ok t, connClosed := true }
  | .qerr => { result := .error (), connClosed := false }

/-- A character that forces a CSV field to be quoted under the minimal
quoting used by `to_csv`: the delimiter, the quote char, or a line break. -/
def specialChar (c : Char) : Bool := c == ',' || c == '"' || c == '\n' || c == '\r'

/-- A field is quoted exactly when it contains a special character. -/
def needsQuoting (s : List Char) : Bool := s.any specialChar

/-- CSV escaping inside a quoted field: each quote character is doubled. -/
def escapeQuotes : List Char → List Char
  | [] => []
  | c :: rest => if c = '"' then '"' :: '"' :: escapeQuotes rest else c :: escapeQuotes rest

/-- Serialize one CSV field: quoted (with doubled inner quotes) when it needs
quoting, verbatim otherwise. -/
def renderField (s : List Char) : List Char :=
  if needsQuoting s then '"' :: (escapeQuotes s ++ ['"']) else s

/-- Serialize one CSV record: its fields joined by commas. -/
def renderLine : List (List Char) → List Char
  | [] => []
  | [f] => renderField f
  | f :: fs => renderField f ++ ',' :: renderLine fs

/-- Serialize a CSV document: one line per record, each ended by a newline. -/
def renderDoc (rows : List (List (List Char))) : List Char :=
  (rows.map fun fs => renderLine fs ++ ['\n']).flatten

/-- Decimal digits of `n`, least significant first, with fuel (`fuel ≥ n`
suffices); `0` yields `[]`. -/
def natDigitsRev : Nat → Nat → List Nat
  | 0, _ => []
  | fuel + 1, n => if n = 0 then [] else n % 10 :: natDigitsRev fuel (n / 10)

/-- The character of one decimal digit. -/
def digitChar (d : Nat) : Char := Char.ofNat (48 + d)

/-- The decimal rendering of `n`, most significant digit first. -/
def natDigits (n : Nat) : List Char :=
  if n = 0 then ['0'] else ((natDigitsRev n n).reverse).map digitChar

/-- The numeric value of a decimal digit character. -/
def charVal (c : Char) : Nat := c.toNat - 48

/-- Value of a digit list, least significant first. -/
def ofDigitsRev : List Nat → Nat
  | [] => 0
  | d :: ds => d + 10 * ofDigitsRev ds

/-- Parse a decimal digit string, most significant digit first. -/
def parseNatChars (cs : List Char) : Nat := ofDigitsRev (cs.reverse.map charVal)

/-- A possibly-missing count renders as its decimal digits, or as the empty
field when missing (how `to_csv` writes a NULL). -/
def renderOptNat : Option Nat → List Char
  | none => []
  | some n => natDigits n

/-- Parse a possibly-missing count: the empty field is a missing value. -/
def parseOptNat : List Char → Option Nat
  | [] => none
  | cs => some (parseNatChars cs)

/-- Body of a quoted CSV field: a doubled quote is a literal quote, a single
quote ends the field, anything else is literal; `none` when the field is
never closed. Returns the field text and the remaining input. -/
def parseQuotedBody (acc : List Char) : List Char → Option (List Char × List Char)
  | [] => none
  | c :: rest =>
    if c = '"' then
      match rest with
      | [] => some (acc, [])
      | c2 :: rest2 =>
        if c2 = '"' then parseQuotedBody (acc ++ ['"']) rest2 else some (acc, rest)
    else parseQuotedBody (acc ++ [c]) rest

/-- Body of an unquoted CSV field: everything up to the next delimiter or
line break. Returns the field text and the remaining input. -/
def parseUnquotedBody (acc : List Char) : List Char → List Char × List Char
  | [] => (acc, [])
  | c :: rest =>
    if c = ',' ∨ c = '\n' then (acc, c :: rest)
    else parseUnquotedBody (acc ++ [c]) rest

/-- Parse one CSV field, quoted or unquoted. -/
def parseField : List Char → Option (List Char × List Char)
  | [] => some ([], [])
  | c :: rest =>
    if c = '"' then parseQuotedBody [] rest
    else some (parseUnquotedBody [] (c :: rest))

/-- Parse the comma-separated fields of one CSV record; the record ends at a
line break or at the end of input. `fuel` bounds the number of fields. -/
def parseRecFields : Nat → List Char → Option (List (List Char) × List Char)
  | 0, _ => none
  | fuel + 1, input =>
    match parseField input with
    | none => none
    | some (f, rest) =>
      match rest with
      | ',' :: r =>
        match parseRecFields fuel r with
        | none => none
        | some (fs, rest2) => some (f :: fs, rest2)
      | _ => some ([f], rest)

/-- Parse a CSV document into its records; every record must be followed by a
newline or end the input. `fuel` bounds the number of records. -/
def parseLines : Nat → List Char → Option (List (List (List Char)))
  | 0, _ => none
  | fuel + 1, input =>
    if input = [] then some []
    else
      match parseRecFields (input.length + 1) input with
      | none => none
      | some (fs, rest) =>
        match rest with
        | '\n' :: r =>
          match parseLines fuel r with
          | none => none
          | some rows => some (fs :: rows)
        | [] => some [fs]
        | _ => none

/-- Parse a whole CSV text into records of fields. -/
def parseCSVChars (input : List Char) : Option (List (List (List Char))) :=
  parseLines (input.length + 1) input

/-- The column order of the exported table, as the header row's fields. -/
def headerFields : List (List Char) :=
  ["region_name".data, "z_name".data, "c_name".data,
   "substation".data, "dtc".data, "ht_pole".data, "lt_pole".data]

/-- The fields of one exported row, in header order. -/
def recordFields (r : AssetRecord) : List (List Char) :=
  [r.region_name.data, r.z_name.data, r.c_name.data,
   renderOptNat r.substation, renderOptNat r.dtc,
   renderOptNat r.ht_pole, renderOptNat r.lt_pole]

/-- Line `mhbase.py:173`: `filtered_data.to_csv(index=False)` — header row then one
line per row, comma-separated, minimally quoted, no index column. -/
def to_csv (f : List AssetRecord) : List Char :=
  renderDoc (headerFields :: f.map recordFields)

/-- Rebuild one record from the seven fields of a parsed CSV row. -/
def fieldsToRecord : List (List Char) → Option AssetRecord
  | [a, b, c, d, e, f, g] =>
    some
      { region_name := String.mk a
        z_name := String.mk b
        c_name := String.mk c
        substation := parseOptNat d
        dtc := parseOptNat e
        ht_pole := parseOptNat f
        lt_pole := parseOptNat g }
  | _ => none

/-- Rebuild the record list from parsed CSV rows; fails if any row does not
have exactly the seven columns. -/
def rowsToRecords : List (List (List Char)) → Option (List AssetRecord)
  | [] => some []
  | fs :: rest =>
    match fieldsToRecord fs, rowsToRecords rest with
    | some r, some rs => some (r :: rs)
    | _, _ => none

/-- Parse an exported CSV text back into the table: split into records, check
the header, rebuild each remaining record. -/
def read_csv (input : List Char) : Option (List AssetRecord) :=
  match parseCSVChars input with
  | none => none
  | some [] => none
  | some (hdr :: rows) =>
    if hdr = headerFields then rowsToRecords rows else none

/-- Worked example table from §8 of the specification (one missing count
added in row 2 / row 3 to exercise the missing-value policy). -/
def sampleTable : List AssetRecord :=
  [{ region_name := "A", z_name := "X", c_name := "c1",
     substation := some 2, dtc := some 1, ht_pole := some 0, lt_pole := some 0 },
   { region_name := "A", z_name := "Y", c_name := "c2",
     substation := some 3, dtc := none, ht_pole := some 1, lt_pole := some 0 },
   { region_name := "B", z_name := "X", c_name := "c3",
     substation := some 0, dtc := some 5, ht_pole := none, lt_pole := some 2 }]

/-! ## Basic lemmas -/

theorem isin_iff (sel : List String) (v : String) : isin sel v = true ↔ v ∈ sel := by
  simp [isin, List.contains, List.elem_iff]

theorem maskSelect_map (p : AssetRecord → Bool) :
    ∀ t : List AssetRecord, maskSelect t (t.map p) = t.filter p := by
  intro t
  induction t with
  | nil => rfl
  | cons r rs ih =>
    simp only [List.map_cons, maskSelect]
    cases h : p r with
    | true => simp [List.filter_cons, h, ih]
    | false => simp [List.filter_cons, h, ih]

theorem filtered_data_eq_filter (t : List AssetRecord) (rs zs : List String) :
    filtered_data t rs zs
      = t.filter fun r => isin rs r.region_name && isin zs r.z_name :=
  maskSelect_map _ t

theorem uniqueVals_go_mem (l : List String) :
    ∀ (acc : List String) (a : String),
      (a ∈ l.foldl (fun acc x => if x ∈ acc then acc else acc ++ [x]) acc)
        ↔ a ∈ acc ∨ a ∈ l := by
  induction l with
  | nil => intro acc a; simp
  | cons hd tl ih =>
    intro acc a
    simp only [List.foldl_cons]
    by_cases h : hd ∈ acc
    · rw [if_pos h, ih]
      simp only [List.mem_cons]
      constructor
      · rintro (h1 | h1)
        · exact Or.inl h1
        · exact Or.inr (Or.inr h1)
      · rintro (h1 | rfl | h1)
        · exact Or.inl h1
        · exact Or.inl h
        · exact Or.inr h1
    · rw [if_neg h, ih]
      simp only [List.mem_append, List.mem_singleton, List.mem_cons]
      tauto

theorem mem_uniqueVals (l : List String) (a : String) : a ∈ uniqueVals l ↔ a ∈ l := by
  rw [uniqueVals, uniqueVals_go_mem]
  simp

theorem uniqueVals_go_nodup (l : List String) :
    ∀ acc : List String, acc.Nodup →
      (l.foldl (fun acc x => if x ∈ acc then acc else acc ++ [x]) acc).Nodup := by
  induction l with
  | nil => intro acc h; simpa using h
  | cons hd tl ih =>
    intro acc h
    simp only [List.foldl_cons]
    by_cases hm : hd ∈ acc
    · rw [if_pos hm]; exact ih acc h
    · rw [if_neg hm]
      refine ih _ ?_
      simp [List.nodup_append, h, hm]

theorem nodup_uniqueVals (l : List String) : (uniqueVals l).Nodup :=
  uniqueVals_go_nodup l [] List.nodup_nil

theorem foldl_add_getD (xs : List (Option Nat)) :
    ∀ a : Nat,
      xs.foldl (fun acc x => acc + x.getD 0) a = a + (xs.map fun x => x.getD 0).sum := by
  induction xs with
  | nil => intro a; simp
  | cons x xs ih =>
    intro a
    simp only [List.foldl_cons, List.map_cons, List.sum_cons, ih]
    omega

theorem seriesSum_eq_sum (xs : List (Option Nat)) :
    seriesSum xs = (xs.map fun x => x.getD 0).sum := by
  simpa using foldl_add_getD xs 0

theorem sum_filter_add_sum_filter_not {α : Type} (f : α → Nat) (p : α → Bool) :
    ∀ t : List α,
      ((t.filter p).map f).sum + ((t.filter fun r => !(p r)).map f).sum
        = (t.map f).sum := by
  intro t
  induction t with
  | nil => simp
  | cons r rs ih =>
    cases h : p r with
    | true => simp [List.filter_cons, h, ← ih]; omega
    | false => simp [List.filter_cons, h, ← ih]; omega

theorem sum_over_groups {α : Type} (key : α → String) (f : α → Nat) :
    ∀ ks : List String, ks.Nodup →
      ∀ t : List α, (∀ r ∈ t, key r ∈ ks) →
        (ks.map fun k => ((t.filter fun r => key r == k).map f).sum).sum
          = (t.map f).sum := by
  intro ks
  induction ks with
  | nil =>
    intro _ t ht
    cases t with
    | nil => simp
    | cons r rs => exact absurd (ht r (by simp)) (by simp)
  | cons k ks ih =>
    intro hnd t ht
    have hk : k ∉ ks := (List.nodup_cons.mp hnd).1
    have hnd1 : ks.Nodup := (List.nodup_cons.mp hnd).2
    simp only [List.map_cons, List.sum_cons]
    have hfilt : ∀ k2 ∈ ks,
        (t.filter fun r => key r == k2)
          = ((t.filter fun r => !(key r == k)).filter fun r => key r == k2) := by
      intro k2 hk2
      rw [List.filter_filter]
      apply List.filter_congr
      intro r _
      cases h2 : (key r == k2) with
      | false => simp
      | true =>
        have : key r = k2 := by simpa using h2
        have : ¬ (key r == k) = true := by
          simp only [beq_iff_eq, this]
          intro hkk
          exact hk (hkk ▸ hk2)
        simp [this]
    have hmap : (ks.map fun k2 => ((t.filter fun r => key r == k2).map f).sum)
        = ks.map fun k2 =>
            (((t.filter fun r => !(key r == k)).filter fun r => key r == k2).map f).sum := by
      apply List.map_congr_left
      intro k2 hk2
      rw [hfilt k2 hk2]
    rw [hmap, ih hnd1 _ ?cover]
    case cover =>
      intro r hr
      rcases List.mem_filter.mp hr with ⟨hrt, hrk⟩
      have := ht r hrt
      simp only [List.mem_cons] at this
      rcases this with h1 | h1
      · exfalso
        simp [h1] at hrk
      · exact h1
    exact sum_filter_add_sum_filter_not f (fun r => key r == k) t

theorem isin_eq_decide (sel : List String) (v : String) : isin sel v = decide (v ∈ sel) := by
  cases hi : isin sel v with
  | true => simp [(isin_iff sel v).mp hi]
  | false =>
    have hv : v ∉ sel := fun h => by simp [(isin_iff sel v).mpr h] at hi
    simp [hv]

theorem mem_filtered (t : List AssetRecord) (rs zs : List String) (r : AssetRecord) :
    r ∈ filtered_data t rs zs ↔ r ∈ t ∧ r.region_name ∈ rs ∧ r.z_name ∈ zs := by
  rw [filtered_data_eq_filter, List.mem_filter]
  simp [isin_iff]

theorem filtered_data_nil_sel (t : List AssetRecord) : filtered_data t [] [] = [] := by
  rw [filtered_data_eq_filter]
  cases t with
  | nil => rfl
  | cons r rs => simp [isin]

/-! ## Claim theorems: filtering -/

/-- C1: `filtered_data` returns exactly the rows whose `region_name` is among
the selected regions and whose `z_name` is among the selected zones — no
other row appears — and the result is an order-preserving subsequence of the
table. -/
theorem C1_filter_exact (t : List AssetRecord) (rs zs : List String) :
    (filtered_data t rs zs).Sublist t
    ∧ (∀ r, r ∈ filtered_data t rs zs ↔ r ∈ t ∧ r.region_name ∈ rs ∧ r.z_name ∈ zs)
    ∧ filtered_data t rs zs
        = t.filter fun r => decide (r.region_name ∈ rs) && decide (r.z_name ∈ zs) := by
  refine ⟨?_, fun r => mem_filtered t rs zs r, ?_⟩
  · rw [filtered_data_eq_filter]
    exact List.filter_sublist t
  · rw [filtered_data_eq_filter]
    apply List.filter_congr
    intro r _
    rw [isin_eq_decide, isin_eq_decide]

/-- C5: filtering with the full observed domains of both categories (the
default sidebar selections, `data["region_name"].unique()` and
`data["z_name"].unique()`) is the identity on the table. -/
theorem C5_filter_full_domain_identity (t : List AssetRecord) :
    filtered_data t (uniqueVals (t.map (·.region_name))) (uniqueVals (t.map (·.z_name))) = t := by
  rw [filtered_data_eq_filter]
  rw [List.filter_eq_self]
  intro r hr
  have h1 : r.region_name ∈ uniqueVals (t.map (·.region_name)) :=
    (mem_uniqueVals _ _).mpr (List.mem_map_of_mem _ hr)
  have h2 : r.z_name ∈ uniqueVals (t.map (·.z_name)) :=
    (mem_uniqueVals _ _).mpr (List.mem_map_of_mem _ hr)
  simp [(isin_iff _ _).mpr h1, (isin_iff _ _).mpr h2]

/-- C10: filtering is monotone in the selection sets — enlarging both
selections keeps every previously selected row — and filtering an
already-filtered view again with the same selections returns it unchanged. -/
theorem C10_filter_monotone_idempotent (t : List AssetRecord) (rs zs rs2 zs2 : List String)
    (hr : rs ⊆ rs2) (hz : zs ⊆ zs2) :
    (∀ r ∈ filtered_data t rs zs, r ∈ filtered_data t rs2 zs2)
    ∧ filtered_data (filtered_data t rs zs) rs zs = filtered_data t rs zs := by
  constructor
  · intro r hmem
    rw [mem_filtered] at hmem ⊢
    exact ⟨hmem.1, hr hmem.2.1, hz hmem.2.2⟩
  · rw [filtered_data_eq_filter (filtered_data t rs zs), List.filter_eq_self]
    intro r hmem
    rw [filtered_data_eq_filter, List.mem_filter] at hmem
    exact hmem.2

/-- Witness for C10 at the worked example table. -/
theorem C10_witness :
    (["A"] ⊆ ["A", "B"]) ∧ (["X"] ⊆ ["X", "Y"])
    ∧ ((∀ r ∈ filtered_data sampleTable ["A"] ["X"],
          r ∈ filtered_data sampleTable ["A", "B"] ["X", "Y"])
       ∧ filtered_data (filtered_data sampleTable ["A"] ["X"]) ["A"] ["X"]
           = filtered_data sampleTable ["A"] ["X"]) :=
  ⟨by intro a ha; simp only [List.mem_cons, List.mem_singleton] at ha ⊢; tauto,
   by intro a ha; simp only [List.mem_cons, List.mem_singleton] at ha ⊢; tauto,
   C10_filter_monotone_idempotent sampleTable ["A"] ["X"] ["A", "B"] ["X", "Y"]
     (by intro a ha; simp only [List.mem_cons, List.mem_singleton] at ha ⊢; tauto)
     (by intro a ha; simp only [List.mem_cons, List.mem_singleton] at ha ⊢; tauto)⟩

/-! ## Claim theorems: scalar totals -/

/-- C2: each of the four totals is the sum of its column over the rows of the
view (a missing entry contributing zero), and the view obtained from empty
region and zone selections has all four totals equal to zero. -/
theorem C2_totals (view t : List AssetRecord) :
    (total_substation view = (view.map fun r => r.substation.getD 0).sum
     ∧ total_dtc view = (view.map fun r => r.dtc.getD 0).sum
     ∧ total_ht_pole view = (view.map fun r => r.ht_pole.getD 0).sum
     ∧ total_lt_pole view = (view.map fun r => r.lt_pole.getD 0).sum)
    ∧ (total_substation (filtered_data t [] []) = 0
       ∧ total_dtc (filtered_data t [] []) = 0
       ∧ total_ht_pole (filtered_data t [] []) = 0
       ∧ total_lt_pole (filtered_data t [] []) = 0) := by
  have hempty := filtered_data_nil_sel t
  constructor
  · refine ⟨?_, ?_, ?_, ?_⟩ <;>
      · simp only [total_substation, total_dtc, total_ht_pole, total_lt_pole,
          seriesSum_eq_sum, List.map_map]
        rfl
  · rw [hempty]
    exact ⟨rfl, rfl, rfl, rfl⟩

/-! ## Grouped and pivoted sums -/

theorem sum_groups_col (key : AssetRecord → String) (f : AssetRecord → Nat)
    (view : List AssetRecord) :
    ((uniqueVals (view.map key)).map fun k =>
        ((view.filter fun r => key r == k).map f).sum).sum = (view.map f).sum :=
  sum_over_groups key f _ (nodup_uniqueVals _) view
    (fun _ hr => (mem_uniqueVals _ _).mpr (List.mem_map_of_mem key hr))

theorem seriesSum_groups (key : AssetRecord → String) (col : AssetRecord → Option Nat)
    (view : List AssetRecord) :
    ((uniqueVals (view.map key)).map fun k =>
        seriesSum ((view.filter fun r => key r == k).map col)).sum
      = seriesSum (view.map col) := by
  have hcongr : ((uniqueVals (view.map key)).map fun k =>
      seriesSum ((view.filter fun r => key r == k).map col))
      = (uniqueVals (view.map key)).map fun k =>
          ((view.filter fun r => key r == k).map fun r => (col r).getD 0).sum := by
    apply List.map_congr_left
    intro k _
    rw [seriesSum_eq_sum, List.map_map]
    rfl
  rw [hcongr, sum_groups_col key (fun r => (col r).getD 0) view,
    seriesSum_eq_sum, List.map_map]
  rfl

/-- C3: for either key column (`region_name` via `region_data`, `z_name` via
`zone_data`) and each of the four numeric columns, the grouped sums summed
over all groups equal the corresponding scalar total of the view. -/
theorem C3_group_totals (view : List AssetRecord) :
    (((region_data view).map (·.substation)).sum = total_substation view
     ∧ ((region_data view).map (·.dtc)).sum = total_dtc view
     ∧ ((region_data view).map (·.ht_pole)).sum = total_ht_pole view
     ∧ ((region_data view).map (·.lt_pole)).sum = total_lt_pole view)
    ∧ (((zone_data view).map (·.substation)).sum = total_substation view
       ∧ ((zone_data view).map (·.dtc)).sum = total_dtc view
       ∧ ((zone_data view).map (·.ht_pole)).sum = total_ht_pole view
       ∧ ((zone_data view).map (·.lt_pole)).sum = total_lt_pole view) := by
  refine ⟨⟨?_, ?_, ?_, ?_⟩, ?_, ?_, ?_, ?_⟩ <;>
    first
      | (rw [region_data, groupBySum, List.map_map]
         exact seriesSum_groups (·.region_name) _ view)
      | (rw [zone_data, groupBySum, List.map_map]
         exact seriesSum_groups (·.z_name) _ view)

theorem sum_map_flatMap {α β : Type} (l : List α) (f : α → List β) (g : β → Nat) :
    ((l.flatMap f).map g).sum = (l.map fun x => ((f x).map g).sum).sum := by
  induction l with
  | nil => rfl
  | cons x xs ih => simp [List.flatMap_cons, ih]

theorem pivot_seriesSum_total (col : AssetRecord → Option Nat) (view : List AssetRecord) :
    ((uniqueVals (view.map (·.region_name))).map fun reg =>
        ((uniqueVals (view.map (·.z_name))).map fun zn =>
            seriesSum ((view.filter fun r =>
              r.region_name == reg && r.z_name == zn).map col)).sum).sum
      = seriesSum (view.map col) := by
  have hinner : ∀ reg,
      ((uniqueVals (view.map (·.z_name))).map fun zn =>
          seriesSum ((view.filter fun r =>
            r.region_name == reg && r.z_name == zn).map col)).sum
        = ((view.filter fun r => r.region_name == reg).map fun r => (col r).getD 0).sum := by
    intro reg
    have hsplit : ∀ zn : String,
        (view.filter fun r => r.region_name == reg && r.z_name == zn)
          = (view.filter fun r => r.region_name == reg).filter fun r => r.z_name == zn := by
      intro zn
      rw [List.filter_filter]
      apply List.filter_congr
      intro r _
      exact Bool.and_comm _ _
    have hcongr : ((uniqueVals (view.map (·.z_name))).map fun zn =>
        seriesSum ((view.filter fun r =>
          r.region_name == reg && r.z_name == zn).map col))
        = (uniqueVals (view.map (·.z_name))).map fun zn =>
            (((view.filter fun r => r.region_name == reg).filter
                fun r => r.z_name == zn).map fun r => (col r).getD 0).sum := by
      apply List.map_congr_left
      intro zn _
      rw [hsplit zn, seriesSum_eq_sum, List.map_map]
      rfl
    rw [hcongr]
    exact sum_over_groups (·.z_name) (fun r => (col r).getD 0) _ (nodup_uniqueVals _) _
      (fun r hr => (mem_uniqueVals _ _).mpr
        (List.mem_map_of_mem _ (List.mem_of_mem_filter hr)))
  have houter : ((uniqueVals (view.map (·.region_name))).map fun reg =>
      ((uniqueVals (view.map (·.z_name))).map fun zn =>
          seriesSum ((view.filter fun r =>
            r.region_name == reg && r.z_name == zn).map col)).sum)
      = (uniqueVals (view.map (·.region_name))).map fun reg =>
          ((view.filter fun r => r.region_name == reg).map fun r => (col r).getD 0).sum := by
    apply List.map_congr_left
    intro reg _
    exact hinner reg
  rw [houter, sum_groups_col (·.region_name) (fun r => (col r).getD 0) view,
    seriesSum_eq_sum, List.map_map]
  rfl

/-- C4: the heatmap pivot has a cell for every pair in the cross-product of
the observed region values and observed zone values; a pair carried by no
row of the view has all four sums zero; and, per numeric column, the cell
values summed over the whole grid equal the view's scalar total. -/
theorem C4_pivot (view : List AssetRecord) :
    (∀ reg ∈ uniqueVals (view.map (·.region_name)),
        ∀ zn ∈ uniqueVals (view.map (·.z_name)),
          pivotCellAt view reg zn ∈ heatmap_data view)
    ∧ (∀ reg zn, (¬ ∃ r ∈ view, r.region_name = reg ∧ r.z_name = zn) →
        (pivotCellAt view reg zn).substation = 0
        ∧ (pivotCellAt view reg zn).dtc = 0
        ∧ (pivotCellAt view reg zn).ht_pole = 0
        ∧ (pivotCellAt view reg zn).lt_pole = 0)
    ∧ (((heatmap_data view).map (·.substation)).sum = total_substation view
       ∧ ((heatmap_data view).map (·.dtc)).sum = total_dtc view
       ∧ ((heatmap_data view).map (·.ht_pole)).sum = total_ht_pole view
       ∧ ((heatmap_data view).map (·.lt_pole)).sum = total_lt_pole view) := by
  refine ⟨?_, ?_, ?_⟩
  · intro reg hreg zn hzn
    rw [heatmap_data, List.mem_flatMap]
    exact ⟨reg, hreg, List.mem_map_of_mem _ hzn⟩
  · intro reg zn hno
    have hnil : (view.filter fun r => r.region_name == reg && r.z_name == zn) = [] := by
      rw [List.filter_eq_nil_iff]
      intro r hr
      simp only [Bool.and_eq_true, beq_iff_eq]
      intro hc
      exact hno ⟨r, hr, hc.1, hc.2⟩
    refine ⟨?_, ?_, ?_, ?_⟩ <;> simp [pivotCellAt, hnil, seriesSum]
  · refine ⟨?_, ?_, ?_, ?_⟩ <;>
      · rw [heatmap_data, sum_map_flatMap]
        simp only [List.map_map]
        first
          | exact pivot_seriesSum_total (·.substation) view
          | exact pivot_seriesSum_total (·.dtc) view
          | exact pivot_seriesSum_total (·.ht_pole) view
          | exact pivot_seriesSum_total (·.lt_pole) view

/-- Witness for C4 at the worked example table, at the present pair
`("A","Y")` and the absent pair `("B","Y")`. -/
theorem C4_witness :
    ("A" ∈ uniqueVals (sampleTable.map (·.region_name)))
    ∧ ("Y" ∈ uniqueVals (sampleTable.map (·.z_name)))
    ∧ pivotCellAt sampleTable "A" "Y" ∈ heatmap_data sampleTable
    ∧ (¬ ∃ r ∈ sampleTable, r.region_name = "B" ∧ r.z_name = "Y")
    ∧ ((pivotCellAt sampleTable "B" "Y").substation = 0
       ∧ (pivotCellAt sampleTable "B" "Y").dtc = 0
       ∧ (pivotCellAt sampleTable "B" "Y").ht_pole = 0
       ∧ (pivotCellAt sampleTable "B" "Y").lt_pole = 0) :=
  ⟨by decide, by decide,
   (C4_pivot sampleTable).1 "A" (by decide) "Y" (by decide),
   by decide,
   (C4_pivot sampleTable).2.1 "B" "Y" (by decide)⟩

/-! ## Missing-value policy -/

theorem seriesSum_eq_reduceOption (xs : List (Option Nat)) :
    seriesSum xs = xs.reduceOption.sum := by
  rw [seriesSum_eq_sum]
  induction xs with
  | nil => rfl
  | cons x xs ih => cases x <;> simp [ih]

/-- C9: the totals, the grouped sums and the pivot sums all treat a missing
numeric cell as zero: the row carrying it stays in the aggregated row set
(the filters consult only the key columns), and each sum equals the sum of
the non-missing values of that column over exactly those rows. -/
theorem C9_missing_as_zero (view : List AssetRecord) :
    (total_substation view = (view.map (·.substation)).reduceOption.sum
     ∧ total_dtc view = (view.map (·.dtc)).reduceOption.sum
     ∧ total_ht_pole view = (view.map (·.ht_pole)).reduceOption.sum
     ∧ total_lt_pole view = (view.map (·.lt_pole)).reduceOption.sum)
    ∧ (∀ key : AssetRecord → String, ∀ g ∈ groupBySum key view,
        g.substation
            = ((view.filter fun r => key r == g.key).map (·.substation)).reduceOption.sum
        ∧ g.dtc = ((view.filter fun r => key r == g.key).map (·.dtc)).reduceOption.sum
        ∧ g.ht_pole = ((view.filter fun r => key r == g.key).map (·.ht_pole)).reduceOption.sum
        ∧ g.lt_pole = ((view.filter fun r => key r == g.key).map (·.lt_pole)).reduceOption.sum)
    ∧ (∀ c ∈ heatmap_data view,
        c.substation = ((view.filter fun r =>
            r.region_name == c.region && r.z_name == c.zone).map (·.substation)).reduceOption.sum
        ∧ c.dtc = ((view.filter fun r =>
            r.region_name == c.region && r.z_name == c.zone).map (·.dtc)).reduceOption.sum
        ∧ c.ht_pole = ((view.filter fun r =>
            r.region_name == c.region && r.z_name == c.zone).map (·.ht_pole)).reduceOption.sum
        ∧ c.lt_pole = ((view.filter fun r =>
            r.region_name == c.region && r.z_name == c.zone).map (·.lt_pole)).reduceOption.sum) := by
  refine ⟨⟨?_, ?_, ?_, ?_⟩, ?_, ?_⟩
  · exact seriesSum_eq_reduceOption _
  · exact seriesSum_eq_reduceOption _
  · exact seriesSum_eq_reduceOption _
  · exact seriesSum_eq_reduceOption _
  · intro key g hg
    rw [groupBySum] at hg
    rcases List.mem_map.mp hg with ⟨k, _, rfl⟩
    exact ⟨seriesSum_eq_reduceOption _, seriesSum_eq_reduceOption _,
      seriesSum_eq_reduceOption _, seriesSum_eq_reduceOption _⟩
  · intro c hc
    rw [heatmap_data, List.mem_flatMap] at hc
    rcases hc with ⟨reg, _, hc⟩
    rcases List.mem_map.mp hc with ⟨zn, _, rfl⟩
    exact ⟨seriesSum_eq_reduceOption _, seriesSum_eq_reduceOption _,
      seriesSum_eq_reduceOption _, seriesSum_eq_reduceOption _⟩

/-- Witness for C9 at the worked example table (rows 2 and 3 carry missing
`dtc` and `ht_pole` cells). -/
theorem C9_witness :
    (groupRowAt sampleTable (·.region_name) "A" ∈ groupBySum (·.region_name) sampleTable)
    ∧ (pivotCellAt sampleTable "A" "Y" ∈ heatmap_data sampleTable)
    ∧ total_dtc sampleTable = (sampleTable.map (·.dtc)).reduceOption.sum
    ∧ (groupRowAt sampleTable (·.region_name) "A").dtc
        = ((sampleTable.filter fun r =>
            r.region_name == (groupRowAt sampleTable (·.region_name) "A").key).map
              (·.dtc)).reduceOption.sum
    ∧ (pivotCellAt sampleTable "A" "Y").ht_pole
        = ((sampleTable.filter fun r =>
            r.region_name == (pivotCellAt sampleTable "A" "Y").region
              && r.z_name == (pivotCellAt sampleTable "A" "Y").zone).map
                (·.ht_pole)).reduceOption.sum :=
  ⟨by decide, by decide,
   (C9_missing_as_zero sampleTable).1.2.1,
   (((C9_missing_as_zero sampleTable).2.1 (·.region_name)
       (groupRowAt sampleTable (·.region_name) "A") (by decide)).2.1),
   (((C9_missing_as_zero sampleTable).2.2 (pivotCellAt sampleTable "A" "Y")
       (by decide)).2.2.1)⟩

/-! ## Result cache -/

theorem runCalls_loaded (src : List AssetRecord) (c : Nat) :
    ∀ m, runCalls src m { stored := some src, loadCount := c }
      = (List.replicate m src, { stored := some src, loadCount := c }) := by
  intro m
  induction m with
  | zero => rfl
  | succ m ih => simp [runCalls, get_or_load, ih, List.replicate_succ]

/-- C7: starting from the empty cache, a run of `n` `get_or_load` calls hits
the database exactly `min n 1` times — the first call loads and stores, and
no later call loads again — and every call returns the table produced by
that first load. -/
theorem C7_cache_loads_once (src : List AssetRecord) (n : Nat) :
    (runCalls src n initialCache).2.loadCount = min n 1
    ∧ (runCalls src n initialCache).1 = List.replicate n src := by
  cases n with
  | zero => exact ⟨rfl, rfl⟩
  | succ n =>
    have h1 : get_or_load src initialCache
        = (src, { stored := some src, loadCount := 1 }) := rfl
    constructor
    · show (runCalls src (n + 1) initialCache).2.loadCount = min (n + 1) 1
      simp [runCalls, h1, runCalls_loaded src 1 n]
    · show (runCalls src (n + 1) initialCache).1 = List.replicate (n + 1) src
      simp [runCalls, h1, runCalls_loaded src 1 n, List.replicate_succ]

/-! ## Connection lifecycle -/

/-- C8 counterexample: when the query raises, `load_data` propagates the
exception with the connection still open — `conn.close()` sits on the line
after `pd.read_sql` with no try/finally around the query — so it is false
that every invocation closes the connection before returning. -/
theorem C8_counterexample :
    (load_data DbResult.qerr).connClosed = false
    ∧ ¬ (∀ r : DbResult, (load_data r).connClosed = true) :=
  ⟨rfl, fun h => by simpa [load_data] using h DbResult.qerr⟩

/-- C8 (amended): the connection is closed before `load_data` returns in the
success case; when the query fails, the error propagates to the caller and
the connection is not closed. -/
theorem C8_amended (t : List AssetRecord) :
    ((load_data (DbResult.ok t)).connClosed = true
     ∧ (load_data (DbResult.ok t)).result = .ok t)
    ∧ ((load_data DbResult.qerr).connClosed = false
       ∧ (load_data DbResult.qerr).result = .error ()) :=
  ⟨⟨rfl, rfl⟩, rfl, rfl⟩

/-! ## CSV round-trip: decimal digits -/

theorem digitsRev_lt (fuel : Nat) : ∀ n, ∀ d ∈ natDigitsRev fuel n, d < 10 := by
  induction fuel with
  | zero => intro n d h; simp [natDigitsRev] at h
  | succ fuel ih =>
    intro n d h
    by_cases hn : n = 0
    · simp [natDigitsRev, hn] at h
    · rw [natDigitsRev, if_neg hn] at h
      rcases List.mem_cons.mp h with rfl | h2
      · exact Nat.mod_lt _ (by norm_num)
      · exact ih (n / 10) d h2

theorem ofDigitsRev_natDigitsRev : ∀ fuel n, n ≤ fuel → ofDigitsRev (natDigitsRev fuel n) = n := by
  intro fuel
  induction fuel with
  | zero =>
    intro n h
    interval_cases n
    rfl
  | succ fuel ih =>
    intro n h
    by_cases hn : n = 0
    · subst hn; simp [natDigitsRev, ofDigitsRev]
    · rw [natDigitsRev, if_neg hn, ofDigitsRev, ih (n / 10) ?_]
      · exact Nat.mod_add_div n 10
      · have := Nat.div_lt_self (Nat.pos_of_ne_zero hn) (by norm_num : 1 < 10)
        omega

theorem charVal_digitChar (d : Nat) (h : d < 10) : charVal (digitChar d) = d := by
  interval_cases d <;> decide

theorem parseNatChars_natDigits (n : Nat) : parseNatChars (natDigits n) = n := by
  by_cases hn : n = 0
  · subst hn; decide
  · rw [natDigits, if_neg hn, parseNatChars, ← List.map_reverse, List.reverse_reverse,
      List.map_map]
    have hmap : (natDigitsRev n n).map (charVal ∘ digitChar) = natDigitsRev n n := by
      have := List.map_congr_left (l := natDigitsRev n n)
        (f := charVal ∘ digitChar) (g := id)
        (fun d hd => charVal_digitChar d (digitsRev_lt n n d hd))
      simpa using this
    rw [hmap]
    exact ofDigitsRev_natDigitsRev n n le_rfl

theorem natDigits_ne_nil (n : Nat) : natDigits n ≠ [] := by
  rw [natDigits]
  by_cases hn : n = 0
  · simp [hn]
  · rw [if_neg hn]
    cases n with
    | zero => exact absurd rfl hn
    | succ m => simp [natDigitsRev]

theorem parseOptNat_renderOptNat (x : Option Nat) : parseOptNat (renderOptNat x) = x := by
  cases x with
  | none => rfl
  | some n =>
    rw [renderOptNat]
    cases hd : natDigits n with
    | nil => exact absurd hd (natDigits_ne_nil n)
    | cons c cs =>
      rw [show parseOptNat (c :: cs) = some (parseNatChars (c :: cs)) from rfl, ← hd,
        parseNatChars_natDigits]

theorem specialChar_digitChar (d : Nat) (h : d < 10) : specialChar (digitChar d) = false := by
  interval_cases d <;> decide

theorem needsQuoting_natDigits (n : Nat) : needsQuoting (natDigits n) = false := by
  rw [needsQuoting, List.any_eq_false]
  intro c hc
  rw [natDigits] at hc
  by_cases hn : n = 0
  · rw [if_pos hn] at hc
    simp only [List.mem_singleton] at hc
    subst hc
    decide
  · rw [if_neg hn] at hc
    rcases List.mem_map.mp hc with ⟨d, hd, rfl⟩
    simp [specialChar_digitChar d (digitsRev_lt n n d (List.mem_reverse.mp hd))]

/-! ## CSV round-trip: fields -/

theorem parseQuotedBody_escape :
    ∀ (s acc rest : List Char), rest.head? ≠ some '"' →
      parseQuotedBody acc (escapeQuotes s ++ '"' :: rest) = some (acc ++ s, rest) := by
  intro s
  induction s with
  | nil =>
    intro acc rest h
    cases rest with
    | nil => simp [escapeQuotes, parseQuotedBody]
    | cons c2 r2 =>
      have hc2 : ¬ c2 = '"' := fun hh => h (by simp [hh])
      simp [escapeQuotes, parseQuotedBody, hc2]
  | cons c s ih =>
    intro acc rest h
    by_cases hc : c = '"'
    · subst hc
      rw [show escapeQuotes ('"' :: s) = '"' :: '"' :: escapeQuotes s from by
          simp [escapeQuotes]]
      rw [show parseQuotedBody acc (('"' :: '"' :: escapeQuotes s) ++ '"' :: rest)
            = parseQuotedBody (acc ++ ['"']) (escapeQuotes s ++ '"' :: rest) from by
          simp [parseQuotedBody]]
      rw [ih _ rest h]
      simp
    · rw [show escapeQuotes (c :: s) = c :: escapeQuotes s from by simp [escapeQuotes, hc]]
      rw [show parseQuotedBody acc ((c :: escapeQuotes s) ++ '"' :: rest)
            = parseQuotedBody (acc ++ [c]) (escapeQuotes s ++ '"' :: rest) from by
          rw [parseQuotedBody.eq_def]
          simp [hc]]
      rw [ih _ rest h]
      simp

theorem parseUnquotedBody_clean :
    ∀ (s acc rest : List Char), needsQuoting s = false →
      (rest = [] ∨ rest.head? = some ',' ∨ rest.head? = some '\n') →
      parseUnquotedBody acc (s ++ rest) = (acc ++ s, rest) := by
  intro s
  induction s with
  | nil =>
    intro acc rest _ hrest
    rcases hrest with rfl | h | h
    · simp [parseUnquotedBody]
    · cases rest with
      | nil => simp at h
      | cons c r =>
        simp only [List.head?_cons, Option.some_inj] at h
        subst h
        simp [parseUnquotedBody]
    · cases rest with
      | nil => simp at h
      | cons c r =>
        simp only [List.head?_cons, Option.some_inj] at h
        subst h
        simp [parseUnquotedBody]
  | cons c s ih =>
    intro acc rest hq hrest
    have hcs : specialChar c = false ∧ needsQuoting s = false := by
      simpa [needsQuoting, List.any_cons, Bool.or_eq_false_iff] using hq
    have hc : ¬ (c = ',' ∨ c = '\n') := by
      have := hcs.1
      simp only [specialChar, Bool.or_eq_false_iff, beq_eq_false_iff_ne, ne_eq] at this
      tauto
    rw [show (c :: s) ++ rest = c :: (s ++ rest) from rfl,
      show parseUnquotedBody acc (c :: (s ++ rest))
          = parseUnquotedBody (acc ++ [c]) (s ++ rest) from by
        simp [parseUnquotedBody, hc],
      ih _ rest hcs.2 hrest]
    simp

theorem parseField_render (s rest : List Char)
    (hrest : rest = [] ∨ rest.head? = some ',' ∨ rest.head? = some '\n') :
    parseField (renderField s ++ rest) = some (s, rest) := by
  cases hq : needsQuoting s with
  | true =>
    have hhead : rest.head? ≠ some '"' := by
      rcases hrest with rfl | h | h
      · simp
      · simp [h]
      · simp [h]
    rw [renderField, if_pos hq,
      show ('"' :: (escapeQuotes s ++ ['"'])) ++ rest
          = '"' :: (escapeQuotes s ++ '"' :: rest) from by simp,
      show parseField ('"' :: (escapeQuotes s ++ '"' :: rest))
          = parseQuotedBody [] (escapeQuotes s ++ '"' :: rest) from by simp [parseField],
      parseQuotedBody_escape s [] rest hhead]
    simp
  | false =>
    rw [renderField, if_neg (by simp [hq])]
    cases s with
    | nil =>
      rw [List.nil_append]
      rcases hrest with rfl | h | h
      · simp [parseField]
      · cases rest with
        | nil => simp at h
        | cons c r =>
          simp only [List.head?_cons, Option.some_inj] at h
          subst h
          simp [parseField, parseUnquotedBody]
      · cases rest with
        | nil => simp at h
        | cons c r =>
          simp only [List.head?_cons, Option.some_inj] at h
          subst h
          simp [parseField, parseUnquotedBody]
    | cons c s2 =>
      have hcq : ¬ c = '"' := by
        have : specialChar c = false := by
          simpa [needsQuoting, List.any_cons, Bool.or_eq_false_iff] using
            And.left (by
              simpa [needsQuoting, List.any_cons, Bool.or_eq_false_iff] using hq :
                specialChar c = false ∧ needsQuoting s2 = false)
        simp only [specialChar, Bool.or_eq_false_iff, beq_eq_false_iff_ne, ne_eq] at this
        tauto
      rw [show parseField ((c :: s2) ++ rest)
            = some (parseUnquotedBody [] ((c :: s2) ++ rest)) from by
          simp [parseField, hcq],
        parseUnquotedBody_clean (c :: s2) [] rest hq hrest]
      simp

/-! ## CSV round-trip: records and documents -/

theorem renderLine_cons_cons (f g : List Char) (fs : List (List Char)) :
    renderLine (f :: g :: fs) = renderField f ++ ',' :: renderLine (g :: fs) := rfl

theorem length_renderLine : ∀ fs : List (List Char), fs.length ≤ (renderLine fs).length + 1 := by
  intro fs
  induction fs with
  | nil => simp [renderLine]
  | cons f fs ih =>
    cases fs with
    | nil => simp [renderLine]
    | cons g gs =>
      rw [renderLine_cons_cons]
      simp only [List.length_cons, List.length_append] at ih ⊢
      omega

theorem parseRecFields_render :
    ∀ fs : List (List Char), fs ≠ [] →
      ∀ fuel : Nat, fs.length ≤ fuel →
        ∀ rest : List Char, (rest = [] ∨ rest.head? = some '\n') →
          parseRecFields fuel (renderLine fs ++ rest) = some (fs, rest) := by
  intro fs
  induction fs with
  | nil => intro h; exact absurd rfl h
  | cons f fs ih =>
    intro _ fuel hfuel rest hrest
    cases fuel with
    | zero => simp at hfuel
    | succ fuel =>
      cases fs with
      | nil =>
        have hpf := parseField_render f rest (by tauto)
        rw [show renderLine [f] = renderField f from rfl]
        rcases hrest with rfl | h
        · rw [List.append_nil] at hpf
          simp [parseRecFields, hpf]
        · cases rest with
          | nil => simp at h
          | cons c r =>
            simp only [List.head?_cons, Option.some_inj] at h
            subst h
            simp [parseRecFields, hpf]
      | cons g gs =>
        have hpf := parseField_render f (',' :: (renderLine (g :: gs) ++ rest))
          (Or.inr (Or.inl rfl))
        rw [renderLine_cons_cons, List.append_assoc, List.cons_append]
        simp only [parseRecFields, hpf]
        rw [ih (by simp) fuel (by simpa using Nat.succ_le_succ_iff.mp hfuel) rest hrest]

theorem renderDoc_cons (fs : List (List Char)) (rows : List (List (List Char))) :
    renderDoc (fs :: rows) = renderLine fs ++ ('\n' :: renderDoc rows) := by
  simp [renderDoc]

theorem length_renderDoc : ∀ rows : List (List (List Char)),
    rows.length ≤ (renderDoc rows).length := by
  intro rows
  induction rows with
  | nil => simp [renderDoc]
  | cons fs rows ih =>
    rw [renderDoc_cons]
    simp only [List.length_cons, List.length_append]
    omega

theorem parseLines_render :
    ∀ (rows : List (List (List Char))) (fuel : Nat), rows.length < fuel →
      (∀ fs ∈ rows, fs ≠ []) →
      parseLines fuel (renderDoc rows) = some rows := by
  intro rows
  induction rows with
  | nil =>
    intro fuel hf _
    cases fuel with
    | zero => omega
    | succ fuel => simp [parseLines, renderDoc]
  | cons fs rows ih =>
    intro fuel hf hne
    cases fuel with
    | zero => omega
    | succ fuel =>
      rw [renderDoc_cons]
      have hinput : renderLine fs ++ ('\n' :: renderDoc rows) ≠ [] := by simp
      have hrec := parseRecFields_render fs (hne fs (by simp))
        ((renderLine fs ++ ('\n' :: renderDoc rows)).length + 1)
        (by
          have := length_renderLine fs
          simp only [List.length_append, List.length_cons]
          omega)
        ('\n' :: renderDoc rows) (Or.inr rfl)
      simp only [parseLines, if_neg hinput, hrec]
      rw [ih fuel (by simpa using Nat.succ_le_succ_iff.mp hf)
        (fun g hg => hne g (by simp [hg]))]

theorem parseCSVChars_render (rows : List (List (List Char)))
    (hne : ∀ fs ∈ rows, fs ≠ []) : parseCSVChars (renderDoc rows) = some rows := by
  rw [parseCSVChars]
  exact parseLines_render rows _ (by have := length_renderDoc rows; omega) hne

theorem string_mk_data (s : String) : String.mk s.data = s := by
  cases s
  rfl

theorem fieldsToRecord_recordFields (r : AssetRecord) :
    fieldsToRecord (recordFields r) = some r := by
  cases r with
  | mk a b c d e f g =>
    simp [recordFields, fieldsToRecord, string_mk_data, parseOptNat_renderOptNat]

theorem rowsToRecords_map : ∀ view : List AssetRecord,
    rowsToRecords (view.map recordFields) = some view := by
  intro view
  induction view with
  | nil => rfl
  | cons r rows ih => simp [rowsToRecords, fieldsToRecord_recordFields, ih]

/-- C6: serializing a view to CSV (comma-separated, header row, no index
column, minimally quoted) and parsing the CSV text back reproduces the
view exactly — same rows in the same order, same category strings, and the
numeric columns parse back to the same integer (or missing) values. -/
theorem C6_csv_roundtrip (view : List AssetRecord) :
    read_csv (to_csv view) = some view := by
  have hne : ∀ fs ∈ headerFields :: view.map recordFields, fs ≠ [] := by
    intro fs hfs
    rcases List.mem_cons.mp hfs with rfl | h
    · simp [headerFields]
    · rcases List.mem_map.mp h with ⟨r, _, rfl⟩
      simp [recordFields]
  have hparse : parseCSVChars (to_csv view)
      = some (headerFields :: view.map recordFields) := by
    rw [to_csv]
    exact parseCSVChars_render _ hne
  simp [read_csv, hparse, rowsToRecords_map]

end MSEDCL
